import Mathlib

/-!
# Verification of the xv6 lab kernel's page allocator and buffer cache

Shallow embedding of `kernel/kalloc.c` (physical page allocator with
copy-on-write reference counting) and `kernel/bio.c` (hash-bucketed disk
block buffer cache), together with proofs of the specified properties.

Machine integers (`uint`) are modelled as `Nat` with explicit `% 2^32`
where overflow matters; the C `int` reference counts of the page table are
modelled as `Int`.  Fallible code returns `Option` (with `none` standing
for a kernel `panic`).
-/

namespace XV6

/-! ## Physical page allocator (`kernel/kalloc.c`)

The allocator state consists of the freelist (the intrusive `struct run`
list, modelled as a list of page base addresses), the copy-on-write page
reference count array `pageref` (indexed by `PA2PGREF_ID`, i.e. by
`(pa - KERNBASE) / PGSIZE`), and the byte contents of each page
(`mem a off` is the byte at offset `off` of the page whose base address
is `a`).  The intrusive `r->next` link that the C code stores inside a
free page is abstracted into the list structure of `freelist`. -/

/-- Page size in bytes (`PGSIZE` in `kernel/riscv.h`, used by `kalloc.c`:
"Allocates whole 4096-byte pages"). -/
def PGSIZE : Nat := 4096

/-- Base of the managed physical range.  Modelled from the spec: the value
of `KERNBASE` comes from `kernel/memlayout.h`, which is not among the
sources; the RISC-V xv6 value `0x80000000` is used.  Only its page
alignment matters for the proofs. -/
def KERNBASE : Nat := 2147483648

/-- Index macro `PA2PGREF_ID(p) = ((p)-KERNBASE)/PGSIZE`: index of a physical address
into the `pageref` array. -/
def PA2PGREF_ID (pa : Nat) : Nat := (pa - KERNBASE) / PGSIZE

/-- Junk byte written by `kalloc` (`memset((char*)r, 5, PGSIZE)`). -/
def KALLOC_JUNK : Nat := 5

/-- Junk byte written by `kfree` (`memset(pa, 1, PGSIZE)`). -/
def KFREE_JUNK : Nat := 1

/-- State of the physical page allocator: `kmem.freelist`, the
`pageref[]` array and the contents of physical memory. -/
structure KState where
  freelist : List Nat
  pageref : Nat → Int
  mem : Nat → Nat → Nat

/-- Function `kalloc()`: pop one frame off the freelist; on success fill it with
`KALLOC_JUNK` bytes and set `PA2PGREF(r) = 1`.  Returns the address, `0`
standing for the C null pointer when the freelist is empty. -/
def kalloc (σ : KState) : KState × Nat :=
  match σ.freelist with
  | [] => (σ, 0)
  | r :: rest =>
      ({ freelist := rest,
         pageref := fun i => if i = PA2PGREF_ID r then 1 else σ.pageref i,
         mem := fun a => if a = r then (fun _ => KALLOC_JUNK) else σ.mem a },
       r)

/-- Function `kfree(pa)`: panics (`none`) when `pa` is misaligned, below the
kernel image (`end`, here the parameter `kend`) or at/past `PHYSTOP`
(parameter `phystop`; both constants come from `kernel/memlayout.h` /
the linker script, which are not among the sources, so they are left
abstract).  Otherwise decrements `PA2PGREF(pa)`; when the count drops to
zero or below, scrubs the page with `KFREE_JUNK` and pushes the frame
onto the freelist. -/
def kfree (kend phystop : Nat) (σ : KState) (pa : Nat) : Option KState :=
  if pa % PGSIZE ≠ 0 ∨ pa < kend ∨ phystop ≤ pa then
    none
  else
    let n : Int := σ.pageref (PA2PGREF_ID pa) - 1
    let pr : Nat → Int := fun i => if i = PA2PGREF_ID pa then n else σ.pageref i
    if n ≤ 0 then
      some { freelist := pa :: σ.freelist,
             pageref := pr,
             mem := fun a => if a = pa then (fun _ => KFREE_JUNK) else σ.mem a }
    else
      some { σ with pageref := pr }

/-- Function `kcopy_n_deref(pa)`: if the reference count is already ≤ 1, return
`pa` unchanged; otherwise allocate a fresh page, copy `pa`'s contents
into it (`memmove`), decrement `pa`'s reference count and return the new
page, or return `0` (leaving the state untouched) when `kalloc` fails. -/
def kcopy_n_deref (σ : KState) (pa : Nat) : KState × Nat :=
  if σ.pageref (PA2PGREF_ID pa) ≤ 1 then
    (σ, pa)
  else
    let s := kalloc σ
    if s.2 = 0 then
      (s.1, 0)
    else
      ({ s.1 with
           mem := fun a => if a = s.2 then s.1.mem pa else s.1.mem a,
           pageref := fun i =>
             if i = PA2PGREF_ID pa then s.1.pageref (PA2PGREF_ID pa) - 1
             else s.1.pageref i },
       s.2)

/-- Function `krefpage(pa)`: increase the reference count of the page by one. -/
def krefpage (σ : KState) (pa : Nat) : KState :=
  { σ with pageref := fun i =>
      if i = PA2PGREF_ID pa then σ.pageref (PA2PGREF_ID pa) + 1
      else σ.pageref i }

/-- Repeated application of `kcopy_n_deref`, each call receiving the state
and the page returned by the previous call. -/
def kcopyIter : Nat → KState × Nat → KState × Nat
  | 0, s => s
  | n + 1, s => kcopyIter n (kcopy_n_deref s.1 s.2)

/-- Page-aligned addresses at or above `KERNBASE` with the same
`PA2PGREF_ID` are equal: the reference-count array index is injective on
page bases. -/
theorem PA2PGREF_ID_inj {pa pb : Nat}
    (ha : pa % PGSIZE = 0) (hb : pb % PGSIZE = 0)
    (hka : KERNBASE ≤ pa) (hkb : KERNBASE ≤ pb)
    (h : PA2PGREF_ID pa = PA2PGREF_ID pb) : pa = pb := by
  unfold PA2PGREF_ID PGSIZE at *
  unfold KERNBASE at *
  omega

/-! ### Properties of the page allocator -/

/-- C7: `kalloc` pops exactly one frame, stamps its reference count to 1
and fills it with the non-zero poison `KALLOC_JUNK`; on an empty freelist
it returns `0` and changes nothing. -/
theorem kalloc_spec (σ : KState) :
    (σ.freelist = [] → kalloc σ = (σ, 0)) ∧
    (∀ r rest, σ.freelist = r :: rest →
      (kalloc σ).2 = r ∧
      (kalloc σ).1.freelist = rest ∧
      (kalloc σ).1.pageref (PA2PGREF_ID r) = 1 ∧
      (∀ off, (kalloc σ).1.mem r off = KALLOC_JUNK) ∧
      KALLOC_JUNK ≠ 0 ∧
      (∀ a, a ≠ r → (kalloc σ).1.mem a = σ.mem a) ∧
      (∀ i, i ≠ PA2PGREF_ID r → (kalloc σ).1.pageref i = σ.pageref i)) := by
  constructor
  · intro h
    simp [kalloc, h]
  · intro r rest h
    simp [kalloc, h, KALLOC_JUNK]
    exact ⟨fun a ha hc => absurd hc ha, fun i hi hc => absurd hc hi⟩

theorem kalloc_spec_witness :
    kalloc ⟨[], fun _ => 0, fun _ _ => 7⟩ = (⟨[], fun _ => 0, fun _ _ => 7⟩, 0) ∧
    (kalloc ⟨[KERNBASE], fun _ => 0, fun _ _ => 7⟩).2 = KERNBASE ∧
    (kalloc ⟨[KERNBASE], fun _ => 0, fun _ _ => 7⟩).1.pageref (PA2PGREF_ID KERNBASE) = 1 ∧
    (∀ off, (kalloc ⟨[KERNBASE], fun _ => 0, fun _ _ => 7⟩).1.mem KERNBASE off = KALLOC_JUNK) := by
  refine ⟨(kalloc_spec _).1 rfl, ?_⟩
  have h := (kalloc_spec ⟨[KERNBASE], fun _ => 0, fun _ _ => 7⟩).2 KERNBASE [] rfl
  exact ⟨h.1, h.2.2.1, h.2.2.2.1⟩

/-- C8: `kfree` panics exactly when the address is misaligned, below the
kernel image or at/past `PHYSTOP`; otherwise it decrements the page's
reference count, and exactly when the count drops to zero or below it
scrubs the page with `KFREE_JUNK` (a pattern distinct from the
allocation poison `KALLOC_JUNK`) and pushes the frame onto the freelist,
leaving the freelist and contents unchanged otherwise. -/
theorem kfree_spec (kend phystop : Nat) (σ : KState) (pa : Nat) :
    ((pa % PGSIZE ≠ 0 ∨ pa < kend ∨ phystop ≤ pa) →
        kfree kend phystop σ pa = none) ∧
    (pa % PGSIZE = 0 → kend ≤ pa → pa < phystop →
      ∃ σ', kfree kend phystop σ pa = some σ' ∧
        σ'.pageref (PA2PGREF_ID pa) = σ.pageref (PA2PGREF_ID pa) - 1 ∧
        (∀ i, i ≠ PA2PGREF_ID pa → σ'.pageref i = σ.pageref i) ∧
        (σ.pageref (PA2PGREF_ID pa) - 1 ≤ 0 →
          σ'.freelist = pa :: σ.freelist ∧
          (∀ off, σ'.mem pa off = KFREE_JUNK) ∧ KFREE_JUNK ≠ KALLOC_JUNK) ∧
        (0 < σ.pageref (PA2PGREF_ID pa) - 1 →
          σ'.freelist = σ.freelist ∧ σ'.mem = σ.mem)) := by
  constructor
  · intro h
    simp only [kfree, if_pos h]
  · intro h1 h2 h3
    have hcond : ¬(pa % PGSIZE ≠ 0 ∨ pa < kend ∨ phystop ≤ pa) := by omega
    by_cases hz : σ.pageref (PA2PGREF_ID pa) - 1 ≤ 0
    · refine ⟨_, by simp only [kfree, if_neg hcond]; rw [if_pos hz], ?_⟩
      refine ⟨by simp, fun i hi => by simp [hi], fun _ => ⟨rfl, fun off => by simp [KFREE_JUNK], by simp [KFREE_JUNK, KALLOC_JUNK]⟩, fun hpos => absurd hz (by omega)⟩
    · refine ⟨_, by simp only [kfree, if_neg hcond]; rw [if_neg hz], ?_⟩
      exact ⟨by simp, fun i hi => by simp [hi], fun hle => absurd hle hz, fun _ => ⟨rfl, rfl⟩⟩

theorem kfree_spec_witness :
    KERNBASE % PGSIZE = 0 ∧
    (∃ σ', kfree KERNBASE (KERNBASE + 10 * PGSIZE)
        ⟨[], fun _ => 1, fun _ _ => 7⟩ KERNBASE = some σ' ∧
      σ'.pageref (PA2PGREF_ID KERNBASE) = 0 ∧
      σ'.freelist = [KERNBASE] ∧
      (∀ off, σ'.mem KERNBASE off = KFREE_JUNK)) := by
  refine ⟨by decide, ?_⟩
  obtain ⟨σ', heq, href, -, hz, -⟩ :=
    (kfree_spec KERNBASE (KERNBASE + 10 * PGSIZE) ⟨[], fun _ => 1, fun _ _ => 7⟩ KERNBASE).2
      (by decide) (le_refl _) (by simp [PGSIZE])
  have h0 : (⟨[], fun _ => 1, fun _ _ => 7⟩ : KState).pageref (PA2PGREF_ID KERNBASE) - 1 ≤ 0 := by
    simp
  obtain ⟨hfl, hmem, -⟩ := hz h0
  exact ⟨σ', heq, by rw [href]; simp, hfl, hmem⟩

/-- C4: on a page shared by `N ≥ 2` owners, `kcopy_n_deref` allocates a
fresh page (the freelist head, distinct from `pa`), copies `pa`'s
pre-call contents into it, sets the new page's reference count to 1,
drops `pa`'s reference count to `N - 1`, and leaves `pa`'s own contents
unchanged. -/
theorem kcopy_n_deref_shared (σ : KState) (pa np : Nat) (rest : List Nat) (N : Int)
    (hN : σ.pageref (PA2PGREF_ID pa) = N) (h2 : 2 ≤ N)
    (hfl : σ.freelist = np :: rest)
    (hpa : pa % PGSIZE = 0) (hnp : np % PGSIZE = 0)
    (hka : KERNBASE ≤ pa) (hkn : KERNBASE ≤ np)
    (hnotin : pa ∉ σ.freelist) :
    (kcopy_n_deref σ pa).2 = np ∧ np ≠ pa ∧
    (kcopy_n_deref σ pa).1.pageref (PA2PGREF_ID np) = 1 ∧
    (kcopy_n_deref σ pa).1.pageref (PA2PGREF_ID pa) = N - 1 ∧
    (∀ off, (kcopy_n_deref σ pa).1.mem np off = σ.mem pa off) ∧
    (kcopy_n_deref σ pa).1.mem pa = σ.mem pa := by
  have hne : np ≠ pa := fun h => hnotin (h ▸ (hfl ▸ List.mem_cons_self np rest))
  have hidne : PA2PGREF_ID np ≠ PA2PGREF_ID pa :=
    fun h => hne (PA2PGREF_ID_inj hnp hpa hkn hka h)
  have hnp0 : np ≠ 0 := by
    intro h; rw [h] at hkn; simp [KERNBASE] at hkn
  have hgt : ¬ σ.pageref (PA2PGREF_ID pa) ≤ 1 := by omega
  simp only [kcopy_n_deref, if_neg hgt, kalloc, hfl]
  simp only [if_neg hnp0]
  refine ⟨by simp, hne, ?_, ?_, ?_, ?_⟩
  · simp [hidne]
  · simp [hidne, Ne.symm hidne, hN]
  · intro off
    simp [hne, Ne.symm hne]
  · funext off
    simp [hne, Ne.symm hne]

theorem kcopy_n_deref_shared_witness :
    (kcopy_n_deref
        ⟨[KERNBASE + PGSIZE], fun i => if i = 0 then 2 else 0, fun _ _ => 9⟩
        KERNBASE).2 = KERNBASE + PGSIZE ∧
    (kcopy_n_deref
        ⟨[KERNBASE + PGSIZE], fun i => if i = 0 then 2 else 0, fun _ _ => 9⟩
        KERNBASE).1.pageref (PA2PGREF_ID (KERNBASE + PGSIZE)) = 1 ∧
    (kcopy_n_deref
        ⟨[KERNBASE + PGSIZE], fun i => if i = 0 then 2 else 0, fun _ _ => 9⟩
        KERNBASE).1.pageref (PA2PGREF_ID KERNBASE) = 1 ∧
    (∀ off, (kcopy_n_deref
        ⟨[KERNBASE + PGSIZE], fun i => if i = 0 then 2 else 0, fun _ _ => 9⟩
        KERNBASE).1.mem (KERNBASE + PGSIZE) off = 9) := by
  have h := kcopy_n_deref_shared
      ⟨[KERNBASE + PGSIZE], fun i => if i = 0 then 2 else 0, fun _ _ => 9⟩
      KERNBASE (KERNBASE + PGSIZE) [] 2
      (by simp [PA2PGREF_ID]) (le_refl _) rfl (by decide) (by decide)
      (le_refl _) (by simp) (by simp [KERNBASE, PGSIZE])
  exact ⟨h.1, h.2.2.1, by rw [h.2.2.2.1]; decide, fun off => h.2.2.2.2.1 off⟩

/-- C5: when the freelist is empty, `kcopy_n_deref` on a shared page
returns the failure indicator `0` and leaves the entire state (reference
counts and contents included) unchanged. -/
theorem kcopy_n_deref_oom (σ : KState) (pa : Nat)
    (h2 : 2 ≤ σ.pageref (PA2PGREF_ID pa)) (hfl : σ.freelist = []) :
    kcopy_n_deref σ pa = (σ, 0) := by
  have hgt : ¬ σ.pageref (PA2PGREF_ID pa) ≤ 1 := by omega
  simp [kcopy_n_deref, if_neg hgt, kalloc, hfl]

theorem kcopy_n_deref_oom_witness :
    kcopy_n_deref ⟨[], fun _ => 2, fun _ _ => 9⟩ KERNBASE
      = (⟨[], fun _ => 2, fun _ _ => 9⟩, 0) :=
  kcopy_n_deref_oom ⟨[], fun _ => 2, fun _ _ => 9⟩ KERNBASE (by simp) rfl

/-- C6: on a page with reference count ≤ 1, `kcopy_n_deref` returns the
same page with the state unchanged, and so does any number of repeated
calls. -/
theorem kcopy_n_deref_idem (σ : KState) (pa : Nat)
    (h1 : σ.pageref (PA2PGREF_ID pa) ≤ 1) :
    kcopy_n_deref σ pa = (σ, pa) ∧ ∀ n, kcopyIter n (σ, pa) = (σ, pa) := by
  have hstep : kcopy_n_deref σ pa = (σ, pa) := by
    simp [kcopy_n_deref, if_pos h1]
  refine ⟨hstep, fun n => ?_⟩
  induction n with
  | zero => rfl
  | succ n ih => simpa [kcopyIter, hstep] using ih

theorem kcopy_n_deref_idem_witness :
    kcopy_n_deref ⟨[], fun _ => 1, fun _ _ => 9⟩ KERNBASE
        = (⟨[], fun _ => 1, fun _ _ => 9⟩, KERNBASE) ∧
    kcopyIter 5 (⟨[], fun _ => 1, fun _ _ => 9⟩, KERNBASE)
        = (⟨[], fun _ => 1, fun _ _ => 9⟩, KERNBASE) := by
  have h := kcopy_n_deref_idem ⟨[], fun _ => 1, fun _ _ => 9⟩ KERNBASE (by simp)
  exact ⟨h.1, h.2 5⟩

/-! ## Buffer cache (`kernel/bio.c`)

A buffer slot (`struct buf` in `kernel/buf.h`) is modelled without its
byte payload `data[BSIZE]` and its `disk` flag, which are touched only by
the external disk driver; the sleep-lock is modelled by the Boolean
`lockHeld`, and the intrusive `next` pointers by list structure: a bucket
is a `List Buf` (the dummy head `bcache.bufmap[key]` is represented by
the list itself; its `trash` field, never written by the code and
zero-initialized as a C global, is the fixed `false` at the start of each
bucket scan).  The cache is the list of `NBUFMAP_BUCKET` buckets. -/

/-- One buffer slot (`struct buf`). -/
structure Buf where
  trash : Bool
  valid : Bool
  dev : Nat
  blockno : Nat
  refcnt : Nat
  lastuse : Nat
  lockHeld : Bool
  deriving DecidableEq, Repr

/-- Constant `NBUFMAP_BUCKET`: number of hash buckets. -/
def NBUFMAP_BUCKET : Nat := 13

/-- Constant `NBUF`: size of the buffer pool.  Modelled from the spec: `param.h`
is not among the sources; the spec only requires a fixed pool, and the
stock xv6 value `MAXOPBLOCKS*3 = 30` is used.  No proof depends on the
value. -/
def NBUF : Nat := 30

/-- Modulus of `uint` wrap-around of 32-bit unsigned arithmetic. -/
def UINTMOD : Nat := 4294967296

/-- Increment `x + 1` in `uint` arithmetic (`b->refcnt++`). -/
def winc (x : Nat) : Nat := (x + 1) % UINTMOD

/-- Decrement `x - 1` in `uint` arithmetic (`b->refcnt--`). -/
def wdec (x : Nat) : Nat := (x + (UINTMOD - 1)) % UINTMOD

/-- Hash macro `BUFMAP_HASH(dev, blockno) = (((dev)<<27)|(blockno)) % NBUFMAP_BUCKET`,
in 32-bit unsigned arithmetic. -/
def BUFMAP_HASH (dev blockno : Nat) : Nat :=
  (((dev <<< 27) % UINTMOD) ||| (blockno % UINTMOD)) % NBUFMAP_BUCKET

/-- The slot stored at position `p` of bucket `k` (`none` when out of
range). -/
def getSlot (bs : List (List Buf)) (k p : Nat) : Option Buf :=
  (bs.getD k []).get? p

/-- Replace the slot at position `p` of bucket `k`. -/
def setSlot (bs : List (List Buf)) (k p : Nat) (b : Buf) : List (List Buf) :=
  bs.set k ((bs.getD k []).set p b)

/-- Function `bbufmap_insertbucket(key, b)`: link `b` at the head of bucket
`key`. -/
def bbufmap_insertbucket (bs : List (List Buf)) (k : Nat) (b : Buf) :
    List (List Buf) :=
  bs.set k (b :: bs.getD k [])

/-- Unlink the slot at position `p` of bucket `k`
(`before_least->next = newb->next`). -/
def removeSlot (bs : List (List Buf)) (k p : Nat) : List (List Buf) :=
  bs.set k ((bs.getD k []).eraseIdx p)

/-- The buffer every pool slot holds after `binit`: `valid = 0`,
`trash = 1`, `lastuse = 0`, `refcnt = 0` (and the zero-initialized
`dev`/`blockno` of a C global). -/
def initBuf : Buf :=
  { trash := true, valid := false, dev := 0, blockno := 0,
    refcnt := 0, lastuse := 0, lockHeld := false }

/-- Function `binit()`: spread `n` fresh buffers over the buckets, buffer `i`
inserted at the head of bucket `i % NBUFMAP_BUCKET`. -/
def binitBuckets (n : Nat) : List (List Buf) :=
  (List.range n).foldl
    (fun bs i => bbufmap_insertbucket bs (i % NBUFMAP_BUCKET) initBuf)
    (List.replicate NBUFMAP_BUCKET [])

/-- Function `bbufmap_searchbucket(key, dev, blockno)`: first slot of the bucket
with matching identity and `!b->trash`; returns its position and
value. -/
def bbufmap_searchbucket : List Buf → Nat → Nat → Option (Nat × Buf)
  | [], _, _ => none
  | b :: rest, dev, blockno =>
      if b.dev = dev ∧ b.blockno = blockno ∧ b.trash = false then
        some (0, b)
      else
        (bbufmap_searchbucket rest dev blockno).map fun s => (s.1 + 1, s.2)

/-- One step of the eviction scan inside bucket `k` (the loop
`for(b = &bcache.bufmap[i]; b->next; b = b->next)` of `bget`): `pt` is
`b->trash` for the node before the candidate (`false` at the dummy
head), `p` the candidate's position, and the running best
`before_least` is represented by the candidate it points to, as
`(bucket, position, buffer)`.  A candidate qualifies when
`(b->trash || b->next->refcnt == 0)` and its `lastuse` is strictly
smaller than the current best's
(`!before_least || b->next->lastuse < before_least->next->lastuse`,
the comparison split off as `better`). -/
def better (c : Buf) : Option (Nat × Nat × Buf) → Bool
  | none => true
  | some (_, _, bb) => c.lastuse < bb.lastuse

def scanBucket (k : Nat) : Bool → List Buf → Nat →
    Option (Nat × Nat × Buf) → Option (Nat × Nat × Buf)
  | _, [], _, best => best
  | pt, c :: rest, p, best =>
      scanBucket k c.trash rest (p + 1)
        (if (pt || c.refcnt == 0) && better c best then some (k, p, c) else best)

/-- The eviction scan over all buckets, in ascending bucket order
(`for(int i = 0; i < NBUFMAP_BUCKET; i++)`). -/
def scanBuckets : Nat → List (List Buf) → Option (Nat × Nat × Buf) →
    Option (Nat × Nat × Buf)
  | _, [], best => best
  | k, l :: rest, best => scanBuckets (k + 1) rest (scanBucket k false l 0 best)

/-- The least-recently-used reusable buffer chosen by `bget`'s eviction
scan (`before_least->next` at the end of the loop), with its bucket and
position; `none` when no candidate was found (the `panic("bget: no
buffers")` case). -/
def findLeast (bs : List (List Buf)) : Option (Nat × Nat × Buf) :=
  scanBuckets 0 bs none

/-- Function `brelse(b)` for the slot at `(k, p)`, at tick `t`: panics (`none`)
unless the caller holds the sleep-lock; otherwise releases it,
decrements `refcnt` and, exactly when the count reaches zero, stamps
`lastuse := ticks`. -/
def brelse (bs : List (List Buf)) (k p t : Nat) : Option (List (List Buf)) :=
  match getSlot bs k p with
  | none => none
  | some b =>
      if b.lockHeld = false then
        none
      else
        let r := wdec b.refcnt
        some (setSlot bs k p
          { b with
            lockHeld := false, refcnt := r,
            lastuse := if r = 0 then t else b.lastuse })

/-- Function `bpin(b)` for the slot at `(k, p)`: increment `refcnt` under the
bucket lock. -/
def bpin (bs : List (List Buf)) (k p : Nat) : Option (List (List Buf)) :=
  match getSlot bs k p with
  | none => none
  | some b => some (setSlot bs k p { b with refcnt := winc b.refcnt })

/-- Function `bunpin(b)` for the slot at `(k, p)`: decrement `refcnt` under the
bucket lock. -/
def bunpin (bs : List (List Buf)) (k p : Nat) : Option (List (List Buf)) :=
  match getSlot bs k p with
  | none => none
  | some b => some (setSlot bs k p { b with refcnt := wdec b.refcnt })

/-- Sequential (single-thread) semantics of `bget(dev, blockno)`:
returns `none` for `panic("bget: no buffers")`, otherwise the new cache
contents and the returned (locked) buffer.  Mirrors the code: hit path;
eviction scan; unlink when the victim lives in another bucket; the
duplicate re-check with the abandon-as-trash path; final
install-and-retag. -/
def bget (bs : List (List Buf)) (dev blockno : Nat) :
    Option (List (List Buf) × Buf) :=
  let key := BUFMAP_HASH dev blockno
  match bbufmap_searchbucket (bs.getD key []) dev blockno with
  | some (j, b) =>
      let b' := { b with refcnt := winc b.refcnt, lockHeld := true }
      some (setSlot bs key j b', b')
  | none =>
      match findLeast bs with
      | none => none
      | some (kb, p, newb) =>
          if kb ≠ key then
            let bs₁ := removeSlot bs kb p
            match bbufmap_searchbucket (bs₁.getD key []) dev blockno with
            | some (j, b) =>
                let b' := { b with refcnt := winc b.refcnt, lockHeld := true }
                some (bbufmap_insertbucket (setSlot bs₁ key j b') key
                        { newb with trash := true, lastuse := 0 }, b')
            | none =>
                let nb := { newb with
                  trash := false, dev := dev, blockno := blockno,
                  refcnt := 1, valid := false, lockHeld := true }
                some (bbufmap_insertbucket bs₁ key nb, nb)
          else
            match bbufmap_searchbucket (bs.getD key []) dev blockno with
            | some (j, b) =>
                let b' := { b with refcnt := winc b.refcnt, lockHeld := true }
                some (setSlot bs key j b', b')
            | none =>
                let nb := { newb with
                  trash := false, dev := dev, blockno := blockno,
                  refcnt := 1, valid := false, lockHeld := true }
                some (setSlot bs key p nb, nb)

/-! ### Access lemmas for the bucket structure -/

theorem getq_eraseIdx {α : Type _} (l : List α) (p q : Nat) (hp : p < l.length) :
    (l.eraseIdx p).get? q = if q < p then l.get? q else l.get? (q + 1) := by
  induction l generalizing p q with
  | nil => simp at hp
  | cons c rest ih =>
      cases p with
      | zero => simp [List.eraseIdx]
      | succ p =>
          cases q with
          | zero => simp [List.eraseIdx]
          | succ q =>
              have := ih p q (by simpa using hp)
              simp only [List.eraseIdx, List.get?_cons_succ]
              rw [this]
              by_cases h : q < p
              · rw [if_pos h, if_pos (by omega)]
              · rw [if_neg h, if_neg (by omega)]

theorem getD_eq_getq (bs : List (List Buf)) (k : Nat) :
    bs.getD k [] = (bs.get? k).getD [] := rfl

theorem getSlot_eq (bs : List (List Buf)) (k p : Nat) :
    getSlot bs k p = ((bs.get? k).getD []).get? p := rfl

theorem getSlot_some_lt {bs : List (List Buf)} {k p : Nat} {b : Buf}
    (h : getSlot bs k p = some b) : k < bs.length := by
  by_contra hk
  have h0 : bs.get? k = none := List.get?_eq_none.2 (Nat.le_of_not_lt hk)
  rw [getSlot_eq, h0] at h
  simp at h

theorem getSlot_of_getq {bs : List (List Buf)} {k : Nat} {l : List Buf}
    (h : bs.get? k = some l) (p : Nat) : getSlot bs k p = l.get? p := by
  rw [getSlot_eq, h]
  rfl

theorem getq_of_getSlot_some {bs : List (List Buf)} {k p : Nat} {b : Buf}
    (h : getSlot bs k p = some b) :
    ∃ l, bs.get? k = some l ∧ l.get? p = some b := by
  rcases hk : bs.get? k with - | l
  · rw [getSlot_eq, hk] at h
    simp at h
  · exact ⟨l, rfl, by rw [getSlot_eq, hk] at h; exact h⟩

theorem getSlot_setSlot_self {bs : List (List Buf)} {k p : Nat} {b₀ : Buf}
    (h : getSlot bs k p = some b₀) (b : Buf) :
    getSlot (setSlot bs k p b) k p = some b := by
  obtain ⟨l, hl, hp⟩ := getq_of_getSlot_some h
  have hk : k < bs.length := getSlot_some_lt h
  have hpl : p < l.length := List.get?_eq_some.1 hp |>.1
  rw [getSlot_eq, setSlot, getD_eq_getq, hl, List.get?_set_eq_of_lt _ hk]
  simp only [Option.getD_some]
  exact List.get?_set_eq_of_lt b hpl

theorem getSlot_setSlot_ne {bs : List (List Buf)} {k p : Nat} (b : Buf)
    {k' p' : Nat} (h : k ≠ k' ∨ p ≠ p') :
    getSlot (setSlot bs k p b) k' p' = getSlot bs k' p' := by
  rcases eq_or_ne k k' with rfl | hk
  · have hp : p ≠ p' := h.resolve_left (fun hc => hc rfl)
    rw [getSlot_eq, setSlot, getD_eq_getq]
    by_cases hk : k < bs.length
    · rw [List.get?_set_eq_of_lt _ hk]
      simp only [Option.getD_some, getD_eq_getq, getSlot_eq]
      exact List.get?_set_ne b _ hp
    · rw [List.set_eq_of_length_le (by omega)]
      rfl
  · rw [getSlot_eq, setSlot, List.get?_set_ne _ _ hk]
    rfl

theorem getSlot_insert_zero {bs : List (List Buf)} {k : Nat}
    (hk : k < bs.length) (b : Buf) :
    getSlot (bbufmap_insertbucket bs k b) k 0 = some b := by
  rw [getSlot_eq, bbufmap_insertbucket, List.get?_set_eq_of_lt _ hk]
  rfl

theorem getSlot_insert_succ {bs : List (List Buf)} {k : Nat}
    (hk : k < bs.length) (b : Buf) (p : Nat) :
    getSlot (bbufmap_insertbucket bs k b) k (p + 1) = getSlot bs k p := by
  rw [getSlot_eq, bbufmap_insertbucket, List.get?_set_eq_of_lt _ hk]
  rfl

theorem getSlot_insert_ne {bs : List (List Buf)} {k : Nat} (b : Buf)
    {k' : Nat} (h : k ≠ k') (p : Nat) :
    getSlot (bbufmap_insertbucket bs k b) k' p = getSlot bs k' p := by
  rw [getSlot_eq, bbufmap_insertbucket, List.get?_set_ne _ _ h]
  rfl

theorem getSlot_remove {bs : List (List Buf)} {k p : Nat} {b : Buf}
    (h : getSlot bs k p = some b) (q : Nat) :
    getSlot (removeSlot bs k p) k q =
      if q < p then getSlot bs k q else getSlot bs k (q + 1) := by
  obtain ⟨l, hl, hp⟩ := getq_of_getSlot_some h
  have hk : k < bs.length := getSlot_some_lt h
  have hpl : p < l.length := List.get?_eq_some.1 hp |>.1
  rw [getSlot_eq, removeSlot, List.get?_set_eq_of_lt _ hk, getD_eq_getq, hl]
  simp only [Option.getD_some]
  rw [getq_eraseIdx l p q hpl]
  by_cases hq : q < p
  · rw [if_pos hq, if_pos hq, getSlot_of_getq hl]
  · rw [if_neg hq, if_neg hq, getSlot_of_getq hl]

theorem getSlot_remove_ne {bs : List (List Buf)} {k p : Nat}
    {k' : Nat} (h : k ≠ k') (q : Nat) :
    getSlot (removeSlot bs k p) k' q = getSlot bs k' q := by
  rw [getSlot_eq, removeSlot, List.get?_set_ne _ _ h]
  rfl

theorem length_setSlot (bs : List (List Buf)) (k p : Nat) (b : Buf) :
    (setSlot bs k p b).length = bs.length := by
  simp [setSlot]

theorem length_insert (bs : List (List Buf)) (k : Nat) (b : Buf) :
    (bbufmap_insertbucket bs k b).length = bs.length := by
  simp [bbufmap_insertbucket]

theorem length_remove (bs : List (List Buf)) (k p : Nat) :
    (removeSlot bs k p).length = bs.length := by
  simp [removeSlot]

/-! ### Lookup lemmas for `bbufmap_searchbucket` -/

theorem searchbucket_some {l : List Buf} {dev blockno j : Nat} {m : Buf}
    (h : bbufmap_searchbucket l dev blockno = some (j, m)) :
    l.get? j = some m ∧ m.trash = false ∧ m.dev = dev ∧ m.blockno = blockno := by
  induction l generalizing j with
  | nil => simp [bbufmap_searchbucket] at h
  | cons b rest ih =>
      by_cases hc : b.dev = dev ∧ b.blockno = blockno ∧ b.trash = false
      · rw [bbufmap_searchbucket, if_pos hc] at h
        obtain ⟨rfl, rfl⟩ : j = 0 ∧ m = b := by
          constructor <;> (cases h; rfl)
        exact ⟨rfl, hc.2.2, hc.1, hc.2.1⟩
      · rw [bbufmap_searchbucket, if_neg hc] at h
        rcases hr : bbufmap_searchbucket rest dev blockno with - | s
        · rw [hr] at h; simp at h
        · rw [hr] at h
          obtain ⟨rfl, rfl⟩ : j = s.1 + 1 ∧ m = s.2 := by
            constructor <;> (cases h; rfl)
          have := ih (j := s.1) (by rw [hr])
          exact ⟨this.1, this.2⟩

theorem searchbucket_none {l : List Buf} {dev blockno : Nat}
    (h : bbufmap_searchbucket l dev blockno = none) :
    ∀ j m, l.get? j = some m → m.trash = false →
      ¬(m.dev = dev ∧ m.blockno = blockno) := by
  induction l with
  | nil => intro j m hj; simp at hj
  | cons b rest ih =>
      by_cases hc : b.dev = dev ∧ b.blockno = blockno ∧ b.trash = false
      · rw [bbufmap_searchbucket, if_pos hc] at h; cases h
      · rw [bbufmap_searchbucket, if_neg hc] at h
        have hr : bbufmap_searchbucket rest dev blockno = none := by
          rcases hr : bbufmap_searchbucket rest dev blockno with - | s
          · rfl
          · rw [hr] at h; simp at h
        intro j m hj ht
        cases j with
        | zero =>
            cases hj
            intro hdb
            exact hc ⟨hdb.1, hdb.2, ht⟩
        | succ j => exact ih hr j m hj ht

/-! ### The eviction scan: eligibility, soundness and minimality

A slot at position `q` of a bucket is *eligible* for the scan when the
condition `(b->trash || b->next->refcnt == 0)` holds at it, i.e. when the
slot preceding it in the bucket list is trash (for `q = 0` the preceding
node is the bucket's dummy head, whose `trash` field is never written and
stays zero-initialized) or its own `refcnt` is zero. -/

def eligL : Bool → List Buf → Nat → Bool
  | pt, c :: _, 0 => pt || c.refcnt == 0
  | _, c :: rest, q + 1 => eligL c.trash rest q
  | _, [], _ => false

/-- Zero-refcount slots are always eligible. -/
theorem eligL_of_refcnt_zero {l : List Buf} :
    ∀ {pt : Bool} {q : Nat} {c : Buf}, l.get? q = some c → c.refcnt = 0 →
      eligL pt l q = true := by
  induction l with
  | nil => intro pt q c h; simp at h
  | cons b rest ih =>
      intro pt q c h h0
      cases q with
      | zero => cases h; simp [eligL, h0]
      | succ q => exact ih h h0

/-- Every slot of bucket `l` that is trash has zero `refcnt` and zero
`lastuse` (the reachable-state invariant, restricted to one bucket). -/
def HtzL (l : List Buf) : Prop :=
  ∀ b ∈ l, b.trash = true → b.refcnt = 0 ∧ b.lastuse = 0

/-- Soundness of one bucket's scan: provided trash slots carry zero
`refcnt`/`lastuse`, the scan's running best never points at a slot with
non-zero reference count.  The hypothesis `hpt` records that whenever the
previous node was trash, the best candidate already has `lastuse = 0`,
so a pinned successor of a trash slot can never win the strict
`<` comparison. -/
theorem scanBucket_refcnt {k : Nat} {l : List Buf} :
    ∀ {pt : Bool} {p : Nat} {best : Option (Nat × Nat × Buf)},
      HtzL l →
      (pt = true → ∃ e, best = some e ∧ e.2.2.lastuse = 0) →
      (∀ e, best = some e → e.2.2.refcnt = 0) →
      ∀ e, scanBucket k pt l p best = some e → e.2.2.refcnt = 0 := by
  induction l with
  | nil => intro pt p best _ _ hok e h; exact hok e h
  | cons c rest ih =>
      intro pt p best hH hpt hok e h
      rw [scanBucket] at h
      have hHr : HtzL rest := fun b hb => hH b (List.mem_cons_of_mem c hb)
      have hHc := hH c (List.mem_cons_self c rest)
      by_cases hcond : ((pt || c.refcnt == 0) && better c best) = true
      · rw [if_pos hcond] at h
        have hboth := Bool.and_eq_true_iff.1 hcond
        have hc0 : c.refcnt = 0 := by
          rcases Bool.or_eq_true_iff.1 hboth.1 with hp | hz
          · -- previous node trash: the best already has lastuse 0, so the
            -- strict comparison cannot have succeeded unless refcnt = 0
            by_cases hz : c.refcnt = 0
            · exact hz
            · obtain ⟨e₀, he₀, hlu⟩ := hpt hp
              subst he₀
              rcases e₀ with ⟨a, q', bb⟩
              have hcl : c.lastuse < bb.lastuse := by
                simpa [better] using hboth.2
              simp only [] at hlu
              omega
          · simpa using hz
        refine ih hHr ?_ ?_ e h
        · intro hct
          exact ⟨(k, p, c), rfl, (hHc hct).2⟩
        · intro e' he'
          cases he'
          exact hc0
      · rw [if_neg hcond] at h
        refine ih hHr ?_ hok e h
        intro hct
        obtain ⟨hc0, hlu0⟩ := hHc hct
        -- c is eligible (refcnt 0), so the comparison must have failed:
        -- the best exists and its lastuse is ≤ c.lastuse = 0
        have hleft : (pt || c.refcnt == 0) = true := by
          simp [hc0]
        rcases hbest : best with - | e₀
        · exfalso
          apply hcond
          rw [hbest, hleft]
          simp [better]
        · subst hbest
          have hnb : better c (some e₀) = false := by
            rw [hleft] at hcond
            simpa using hcond
          rcases e₀ with ⟨a, q', bb⟩
          simp [better] at hnb
          exact ⟨(a, q', bb), rfl, by simp only []; omega⟩

/-- The scan's best always points at an actual slot of the cache. -/
theorem scanBucket_pos {bs : List (List Buf)} {k : Nat} {l : List Buf} :
    ∀ {pt : Bool} {p : Nat} {best : Option (Nat × Nat × Buf)},
      (∀ q c, l.get? q = some c → getSlot bs k (p + q) = some c) →
      (∀ e, best = some e → getSlot bs e.1 e.2.1 = some e.2.2) →
      ∀ e, scanBucket k pt l p best = some e →
        getSlot bs e.1 e.2.1 = some e.2.2 := by
  induction l with
  | nil => intro pt p best _ hok e h; exact hok e h
  | cons c rest ih =>
      intro pt p best hal hok e h
      rw [scanBucket] at h
      refine ih ?_ ?_ e h
      · intro q c' hq
        have := hal (q + 1) c' hq
        rwa [show p + (q + 1) = p + 1 + q by omega] at this
      · intro e' he'
        by_cases hcond : ((pt || c.refcnt == 0) && better c best) = true
        · rw [if_pos hcond] at he'
          cases he'
          simpa using hal 0 c rfl
        · rw [if_neg hcond] at he'
          exact hok e' he'

/-- Once the running best exists it stays, and its `lastuse` only ever
decreases. -/
theorem scanBucket_mono {k : Nat} {l : List Buf} :
    ∀ {pt : Bool} {p : Nat} {best : Option (Nat × Nat × Buf)}
      {e₀ : Nat × Nat × Buf}, best = some e₀ →
      ∃ e, scanBucket k pt l p best = some e ∧
        e.2.2.lastuse ≤ e₀.2.2.lastuse := by
  induction l with
  | nil =>
      intro pt p best e₀ h
      exact ⟨e₀, by rw [scanBucket, h], le_refl _⟩
  | cons c rest ih =>
      intro pt p best e₀ h
      rw [scanBucket]
      by_cases hcond : ((pt || c.refcnt == 0) && better c best) = true
      · rw [if_pos hcond]
        have hlt : c.lastuse ≤ e₀.2.2.lastuse := by
          have hb := (Bool.and_eq_true_iff.1 hcond).2
          rw [h] at hb
          rcases e₀ with ⟨a, q', bb⟩
          simp [better] at hb
          simpa using Nat.le_of_lt hb
        obtain ⟨e, he, hle⟩ :
            ∃ e, scanBucket k c.trash rest (p + 1) (some (k, p, c)) = some e ∧
              e.2.2.lastuse ≤ c.lastuse := ih rfl
        exact ⟨e, he, le_trans hle hlt⟩
      · rw [if_neg hcond]
        exact ih h

/-- Coverage: the final best is at most every eligible slot's
`lastuse`. -/
theorem scanBucket_cov {k : Nat} {l : List Buf} :
    ∀ {pt : Bool} {p : Nat} {best : Option (Nat × Nat × Buf)} {q : Nat}
      {c : Buf}, l.get? q = some c → eligL pt l q = true →
      ∃ e, scanBucket k pt l p best = some e ∧
        e.2.2.lastuse ≤ c.lastuse := by
  induction l with
  | nil => intro pt p best q c hq; simp at hq
  | cons c0 rest ih =>
      intro pt p best q c hq helig
      cases q with
      | zero =>
          cases hq
          rw [scanBucket]
          have hleft : (pt || c0.refcnt == 0) = true := by
            simpa [eligL] using helig
          by_cases hbet : better c0 best = true
          · rw [if_pos (by rw [hleft, hbet]; rfl)]
            obtain ⟨e, he, hle⟩ :
                ∃ e, scanBucket k c0.trash rest (p + 1) (some (k, p, c0))
                    = some e ∧ e.2.2.lastuse ≤ c0.lastuse :=
              scanBucket_mono rfl
            exact ⟨e, he, hle⟩
          · have hbf : better c0 best = false := Bool.eq_false_iff.2 hbet
            rcases best with - | e₀
            · simp [better] at hbf
            · rw [if_neg (by rw [hleft, hbf]; simp)]
              have hle : e₀.2.2.lastuse ≤ c0.lastuse := by
                rcases e₀ with ⟨a, q', bb⟩
                simp [better] at hbf
                simpa using hbf
              obtain ⟨e, he, hle'⟩ :
                  ∃ e, scanBucket k c0.trash rest (p + 1) (some e₀) = some e ∧
                    e.2.2.lastuse ≤ e₀.2.2.lastuse := scanBucket_mono rfl
              exact ⟨e, he, le_trans hle' hle⟩
      | succ q =>
          rw [scanBucket]
          exact ih hq helig

/-- If nothing in the bucket is eligible, the scan leaves the best
untouched. -/
theorem scanBucket_no_elig {k : Nat} {l : List Buf} :
    ∀ {pt : Bool} {p : Nat} {best : Option (Nat × Nat × Buf)},
      (∀ q, eligL pt l q = false) →
      scanBucket k pt l p best = best := by
  induction l with
  | nil => intro pt p best _; rw [scanBucket]
  | cons c rest ih =>
      intro pt p best hne
      rw [scanBucket]
      have h0 : (pt || c.refcnt == 0) = false := hne 0
      rw [if_neg (by rw [h0]; simp)]
      exact ih fun q => hne (q + 1)

/-! ### The cross-bucket fold of the eviction scan -/

theorem scanBuckets_refcnt :
    ∀ {ls : List (List Buf)} {k0 : Nat} {best : Option (Nat × Nat × Buf)},
      (∀ l ∈ ls, HtzL l) →
      (∀ e, best = some e → e.2.2.refcnt = 0) →
      ∀ e, scanBuckets k0 ls best = some e → e.2.2.refcnt = 0 := by
  intro ls
  induction ls with
  | nil => intro k0 best _ hok e h; exact hok e h
  | cons l rest ih =>
      intro k0 best hH hok e h
      rw [scanBuckets] at h
      refine ih (fun l' hl' => hH l' (List.mem_cons_of_mem l hl')) ?_ e h
      exact scanBucket_refcnt (hH l (List.mem_cons_self l rest))
        (fun hf => by cases hf) hok

theorem scanBuckets_pos {bs : List (List Buf)} :
    ∀ {ls : List (List Buf)} {k0 : Nat} {best : Option (Nat × Nat × Buf)},
      (∀ j, ls.get? j = bs.get? (k0 + j)) →
      (∀ e, best = some e → getSlot bs e.1 e.2.1 = some e.2.2) →
      ∀ e, scanBuckets k0 ls best = some e →
        getSlot bs e.1 e.2.1 = some e.2.2 := by
  intro ls
  induction ls with
  | nil => intro k0 best _ hok e h; exact hok e h
  | cons l rest ih =>
      intro k0 best hal hok e h
      rw [scanBuckets] at h
      refine ih ?_ ?_ e h
      · intro j
        have := hal (j + 1)
        rwa [show k0 + (j + 1) = k0 + 1 + j by omega] at this
      · refine scanBucket_pos ?_ hok
        intro q c hq
        have h0 : bs.get? k0 = some l := by
          have h1 := hal 0
          rw [Nat.add_zero] at h1
          exact h1.symm
        rw [getSlot_of_getq h0]
        simpa using hq

theorem scanBuckets_mono :
    ∀ {ls : List (List Buf)} {k0 : Nat} {best : Option (Nat × Nat × Buf)}
      {e₀ : Nat × Nat × Buf}, best = some e₀ →
      ∃ e, scanBuckets k0 ls best = some e ∧
        e.2.2.lastuse ≤ e₀.2.2.lastuse := by
  intro ls
  induction ls with
  | nil =>
      intro k0 best e₀ h
      exact ⟨e₀, by rw [scanBuckets, h], le_refl _⟩
  | cons l rest ih =>
      intro k0 best e₀ h
      rw [scanBuckets]
      obtain ⟨e₁, he₁, hle₁⟩ :
          ∃ e₁, scanBucket k0 false l 0 best = some e₁ ∧
            e₁.2.2.lastuse ≤ e₀.2.2.lastuse := scanBucket_mono h
      obtain ⟨e, he, hle⟩ := ih he₁
      exact ⟨e, he, le_trans hle hle₁⟩

theorem scanBuckets_cov :
    ∀ {ls : List (List Buf)} {k0 j : Nat} {l : List Buf}
      {best : Option (Nat × Nat × Buf)} {q : Nat} {c : Buf},
      ls.get? j = some l → l.get? q = some c → eligL false l q = true →
      ∃ e, scanBuckets k0 ls best = some e ∧
        e.2.2.lastuse ≤ c.lastuse := by
  intro ls
  induction ls with
  | nil => intro k0 j l best q c hj; simp at hj
  | cons l0 rest ih =>
      intro k0 j l best q c hj hq helig
      cases j with
      | zero =>
          cases hj
          rw [scanBuckets]
          obtain ⟨e₁, he₁, hle₁⟩ :
              ∃ e₁, scanBucket k0 false l0 0 best = some e₁ ∧
                e₁.2.2.lastuse ≤ c.lastuse := scanBucket_cov hq helig
          obtain ⟨e, he, hle⟩ := scanBuckets_mono he₁
          exact ⟨e, he, le_trans hle hle₁⟩
      | succ j =>
          rw [scanBuckets]
          exact ih hj hq helig

theorem scanBuckets_no_elig :
    ∀ {ls : List (List Buf)} {k0 : Nat} {best : Option (Nat × Nat × Buf)},
      (∀ j l, ls.get? j = some l → ∀ q, eligL false l q = false) →
      scanBuckets k0 ls best = best := by
  intro ls
  induction ls with
  | nil => intro k0 best _; rw [scanBuckets]
  | cons l rest ih =>
      intro k0 best hne
      rw [scanBuckets, scanBucket_no_elig (hne 0 l rfl)]
      exact ih fun j l' hj => hne (j + 1) l' hj

/-! ### Properties of `findLeast` -/

/-- Reachable-state invariant of the pool: every trash slot has zero
reference count and zero `lastuse` (trash buffers are created by `binit`
and by the abandon path of `bget`, both of which enforce this). -/
def TrashZero (bs : List (List Buf)) : Prop :=
  ∀ k p b, getSlot bs k p = some b → b.trash = true →
    b.refcnt = 0 ∧ b.lastuse = 0

theorem htzL_of_trashZero {bs : List (List Buf)} (hH : TrashZero bs)
    {j : Nat} {l : List Buf} (hj : bs.get? j = some l) : HtzL l := by
  intro b hb ht
  obtain ⟨q, hq⟩ := List.mem_iff_get?.1 hb
  exact hH j q b (by rw [getSlot_of_getq hj]; exact hq) ht

/-- The chosen victim of the eviction scan always has zero reference
count (given the trash invariant). -/
theorem findLeast_refcnt {bs : List (List Buf)} {k p : Nat} {b : Buf}
    (hH : TrashZero bs) (h : findLeast bs = some (k, p, b)) :
    b.refcnt = 0 := by
  refine scanBuckets_refcnt ?_ (fun e he => by cases he) (k, p, b) h
  intro l hl
  obtain ⟨j, hj⟩ := List.mem_iff_get?.1 hl
  exact htzL_of_trashZero hH hj

/-- The chosen victim is an actual slot of the cache. -/
theorem findLeast_pos {bs : List (List Buf)} {k p : Nat} {b : Buf}
    (h : findLeast bs = some (k, p, b)) : getSlot bs k p = some b := by
  refine scanBuckets_pos ?_ (fun e he => by cases he) (k, p, b) h
  intro j
  simp

/-- Minimality: the chosen victim's `lastuse` is a lower bound of the
`lastuse` of every zero-refcount slot. -/
theorem findLeast_min {bs : List (List Buf)} {k p : Nat} {b : Buf}
    (h : findLeast bs = some (k, p, b)) :
    ∀ k' p' b', getSlot bs k' p' = some b' → b'.refcnt = 0 →
      b.lastuse ≤ b'.lastuse := by
  intro k' p' b' hb' h0
  obtain ⟨l, hl, hq⟩ := getq_of_getSlot_some hb'
  obtain ⟨e, he, hle⟩ :
      ∃ e, scanBuckets 0 bs none = some e ∧ e.2.2.lastuse ≤ b'.lastuse :=
    scanBuckets_cov hl hq (eligL_of_refcnt_zero hq h0)
  rw [findLeast] at h
  rw [h] at he
  cases he
  exact hle

/-- Liveness: a zero-refcount slot guarantees the scan finds a
victim. -/
theorem findLeast_isSome {bs : List (List Buf)} {k p : Nat} {b : Buf}
    (hb : getSlot bs k p = some b) (h0 : b.refcnt = 0) :
    ∃ e, findLeast bs = some e := by
  obtain ⟨l, hl, hq⟩ := getq_of_getSlot_some hb
  obtain ⟨e, he, -⟩ :
      ∃ e, scanBuckets 0 bs none = some e ∧ e.2.2.lastuse ≤ b.lastuse :=
    scanBuckets_cov hl hq (eligL_of_refcnt_zero hq h0)
  exact ⟨e, he⟩

/-- In a bucket where every slot is pinned and none is trash, no position
is eligible. -/
theorem eligL_false_of_allpos {l : List Buf} :
    (∀ q c, l.get? q = some c → c.refcnt ≠ 0 ∧ c.trash = false) →
    ∀ q, eligL false l q = false := by
  induction l with
  | nil => intro _ q; cases q <;> rfl
  | cons c rest ih =>
      intro hl q
      have hc := hl 0 c rfl
      cases q with
      | zero =>
          have h1 : (c.refcnt == 0) = false := by simpa using hc.1
          simp [eligL, h1]
      | succ q =>
          show eligL c.trash rest q = false
          rw [hc.2]
          exact ih (fun q' c' hq' => hl (q' + 1) c' hq') q

/-- When every slot is pinned (and trash slots obey the invariant, which
forces their absence), the scan finds nothing: `bget` panics. -/
theorem findLeast_none {bs : List (List Buf)} (hH : TrashZero bs)
    (hall : ∀ k p b, getSlot bs k p = some b → b.refcnt ≠ 0) :
    findLeast bs = none := by
  rw [findLeast]
  refine scanBuckets_no_elig ?_
  intro j l hj
  refine eligL_false_of_allpos ?_
  intro q' c hq'
  have hrc := hall j q' c (by rw [getSlot_of_getq hj]; exact hq')
  refine ⟨hrc, ?_⟩
  by_contra ht
  have := hH j q' c (by rw [getSlot_of_getq hj]; exact hq')
    (by revert ht; cases c.trash <;> simp)
  exact hrc this.1

/-! ### The buffer cache state machine

Each constructor of `Step` is one atomic lock-protected section of
`bio.c`.  A `bget` miss is split into the phases the code really
executes without holding the target bucket's lock throughout: the
stealing phase (scan all buckets, unlink the victim when it lives in a
foreign bucket) and the inserting phase (re-check the target bucket,
then install the stolen buffer or abandon it as trash), with arbitrary
other steps allowed in between — this models the concurrency window the
comment block in `bget` describes.  `brelse`/`bpin`/`bunpin` steps carry
the precondition that the caller's pointer designates a live (non-trash)
slot: callers only hold buffers returned by `bget`, which are live, and
a buffer with an outstanding reference is never abandoned. -/

/-- Cache state: the thirteen buckets, plus the buffers currently stolen
by some in-flight eviction (held privately by a thread, linked into no
bucket). -/
structure BState where
  buckets : List (List Buf)
  pending : List Buf

/-- The state after `binit()`. -/
def binitState : BState := ⟨binitBuckets NBUF, []⟩

/-- At most one live (non-trash) slot per (device, block) pair. -/
def Uniq (bs : List (List Buf)) : Prop :=
  ∀ k1 p1 b1 k2 p2 b2,
    getSlot bs k1 p1 = some b1 → getSlot bs k2 p2 = some b2 →
    b1.trash = false → b2.trash = false →
    b1.dev = b2.dev → b1.blockno = b2.blockno → k1 = k2 ∧ p1 = p2

/-- Every live slot sits in the bucket its identity hashes to. -/
def Hashed (bs : List (List Buf)) : Prop :=
  ∀ k p b, getSlot bs k p = some b → b.trash = false →
    BUFMAP_HASH b.dev b.blockno = k

/-- Invariant on the bucket array. -/
structure BInv (bs : List (List Buf)) : Prop where
  len : bs.length = NBUFMAP_BUCKET
  hashed : Hashed bs
  tz : TrashZero bs
  uniq : Uniq bs

/-- Full state invariant: bucket invariant plus the fact that stolen
(pending) buffers have zero reference count. -/
def Inv (σ : BState) : Prop :=
  BInv σ.buckets ∧ ∀ b ∈ σ.pending, b.refcnt = 0

/-- Atomic transitions of the buffer cache. -/
inductive Step : BState → BState → Prop
  | hit (σ : BState) (dev blockno j : Nat) (b : Buf)
      (hfind : bbufmap_searchbucket
          (σ.buckets.getD (BUFMAP_HASH dev blockno) []) dev blockno
          = some (j, b)) :
      Step σ ⟨setSlot σ.buckets (BUFMAP_HASH dev blockno) j
                { b with refcnt := winc b.refcnt, lockHeld := true },
              σ.pending⟩
  | stealRemove (σ : BState) (dev blockno kb p : Nat) (b : Buf)
      (hmiss : bbufmap_searchbucket
          (σ.buckets.getD (BUFMAP_HASH dev blockno) []) dev blockno = none)
      (hfl : findLeast σ.buckets = some (kb, p, b))
      (hne : kb ≠ BUFMAP_HASH dev blockno) :
      Step σ ⟨removeSlot σ.buckets kb p, b :: σ.pending⟩
  | installFresh (σ : BState) (dev blockno : Nat) (b : Buf)
      (hp : b ∈ σ.pending)
      (hmiss : bbufmap_searchbucket
          (σ.buckets.getD (BUFMAP_HASH dev blockno) []) dev blockno = none) :
      Step σ ⟨bbufmap_insertbucket σ.buckets (BUFMAP_HASH dev blockno)
                { b with
                  trash := false, dev := dev, blockno := blockno,
                  refcnt := 1, valid := false, lockHeld := true },
              σ.pending.erase b⟩
  | abandon (σ : BState) (dev blockno j : Nat) (b m : Buf)
      (hp : b ∈ σ.pending)
      (hfound : bbufmap_searchbucket
          (σ.buckets.getD (BUFMAP_HASH dev blockno) []) dev blockno
          = some (j, m)) :
      Step σ ⟨bbufmap_insertbucket
                (setSlot σ.buckets (BUFMAP_HASH dev blockno) j
                  { m with refcnt := winc m.refcnt, lockHeld := true })
                (BUFMAP_HASH dev blockno)
                { b with trash := true, lastuse := 0 },
              σ.pending.erase b⟩
  | stealSameFresh (σ : BState) (dev blockno p : Nat) (b : Buf)
      (hfl : findLeast σ.buckets = some (BUFMAP_HASH dev blockno, p, b))
      (hmiss : bbufmap_searchbucket
          (σ.buckets.getD (BUFMAP_HASH dev blockno) []) dev blockno = none) :
      Step σ ⟨setSlot σ.buckets (BUFMAP_HASH dev blockno) p
                { b with
                  trash := false, dev := dev, blockno := blockno,
                  refcnt := 1, valid := false, lockHeld := true },
              σ.pending⟩
  | stealSameHit (σ : BState) (dev blockno p j : Nat) (b m : Buf)
      (hfl : findLeast σ.buckets = some (BUFMAP_HASH dev blockno, p, b))
      (hfound : bbufmap_searchbucket
          (σ.buckets.getD (BUFMAP_HASH dev blockno) []) dev blockno
          = some (j, m)) :
      Step σ ⟨setSlot σ.buckets (BUFMAP_HASH dev blockno) j
                { m with refcnt := winc m.refcnt, lockHeld := true },
              σ.pending⟩
  | brelseStep (σ : BState) (k p t : Nat) (b : Buf) (bs' : List (List Buf))
      (hb : getSlot σ.buckets k p = some b) (ht : b.trash = false)
      (h : brelse σ.buckets k p t = some bs') :
      Step σ ⟨bs', σ.pending⟩
  | bpinStep (σ : BState) (k p : Nat) (b : Buf) (bs' : List (List Buf))
      (hb : getSlot σ.buckets k p = some b) (ht : b.trash = false)
      (h : bpin σ.buckets k p = some bs') :
      Step σ ⟨bs', σ.pending⟩
  | bunpinStep (σ : BState) (k p : Nat) (b : Buf) (bs' : List (List Buf))
      (hb : getSlot σ.buckets k p = some b) (ht : b.trash = false)
      (h : bunpin σ.buckets k p = some bs') :
      Step σ ⟨bs', σ.pending⟩

/-- States reachable from `binit` through the cache operations. -/
inductive Reachable : BState → Prop
  | init : Reachable binitState
  | step {σ σ' : BState} : Reachable σ → Step σ σ' → Reachable σ'

/-! ### Invariant preservation -/

theorem hash_lt (dev blockno : Nat) :
    BUFMAP_HASH dev blockno < NBUFMAP_BUCKET :=
  Nat.mod_lt _ (by decide)

theorem getSlot_setSlot_cases {bs : List (List Buf)} {k p : Nat}
    {b b' : Buf} (hb : getSlot bs k p = some b) {k' p' : Nat} {c : Buf}
    (h : getSlot (setSlot bs k p b') k' p' = some c) :
    (k' = k ∧ p' = p ∧ c = b') ∨
    ((k ≠ k' ∨ p ≠ p') ∧ getSlot bs k' p' = some c) := by
  by_cases he : k' = k ∧ p' = p
  · obtain ⟨rfl, rfl⟩ := he
    rw [getSlot_setSlot_self hb b'] at h
    cases h
    exact Or.inl ⟨rfl, rfl, rfl⟩
  · have hne : k ≠ k' ∨ p ≠ p' := by
      by_cases h1 : k' = k
      · exact Or.inr fun h2 => he ⟨h1, h2.symm⟩
      · exact Or.inl fun h2 => h1 h2.symm
    rw [getSlot_setSlot_ne b' hne] at h
    exact Or.inr ⟨hne, h⟩

/-- Updating a live slot without touching its `trash`, `dev` or
`blockno` fields (the hit path, `brelse`, `bpin`, `bunpin`) preserves
the bucket invariant. -/
theorem binv_update_metadata {bs : List (List Buf)} (hI : BInv bs)
    {k p : Nat} {b b' : Buf} (hb : getSlot bs k p = some b)
    (htr : b'.trash = b.trash) (hdev : b'.dev = b.dev)
    (hbl : b'.blockno = b.blockno)
    (ht : b.trash = false) :
    BInv (setSlot bs k p b') := by
  refine ⟨by rw [length_setSlot]; exact hI.len, ?_, ?_, ?_⟩
  · intro k' p' c hc hlive
    rcases getSlot_setSlot_cases hb hc with ⟨rfl, rfl, rfl⟩ | ⟨-, hold⟩
    · rw [hdev, hbl]
      exact hI.hashed k' p' b hb ht
    · exact hI.hashed k' p' c hold hlive
  · intro k' p' c hc hct
    rcases getSlot_setSlot_cases hb hc with ⟨rfl, rfl, rfl⟩ | ⟨-, hold⟩
    · rw [htr, ht] at hct; cases hct
    · exact hI.tz k' p' c hold hct
  · intro k1 p1 b1 k2 p2 b2 h1 h2 t1 t2 hd hbn
    rcases getSlot_setSlot_cases hb h1 with ⟨hk1, hp1, hb1⟩ | ⟨-, hold1⟩ <;>
      rcases getSlot_setSlot_cases hb h2 with ⟨hk2, hp2, hb2⟩ | ⟨-, hold2⟩
    · exact ⟨hk1.trans hk2.symm, hp1.trans hp2.symm⟩
    · have hd' : b.dev = b2.dev := by rw [← hdev, ← hb1]; exact hd
      have hbn' : b.blockno = b2.blockno := by rw [← hbl, ← hb1]; exact hbn
      obtain ⟨hk, hp⟩ := hI.uniq k p b k2 p2 b2 hb hold2 ht t2 hd' hbn'
      exact ⟨hk1.trans hk, hp1.trans hp⟩
    · have hd' : b1.dev = b.dev := by rw [← hdev, ← hb2]; exact hd
      have hbn' : b1.blockno = b.blockno := by rw [← hbl, ← hb2]; exact hbn
      obtain ⟨hk, hp⟩ := hI.uniq k1 p1 b1 k p b hold1 hb t1 ht hd' hbn'
      exact ⟨hk.trans hk2.symm, hp.trans hp2.symm⟩
    · exact hI.uniq k1 p1 b1 k2 p2 b2 hold1 hold2 t1 t2 hd hbn

/-- Unlinking any slot preserves the bucket invariant. -/
theorem binv_remove {bs : List (List Buf)} (hI : BInv bs)
    {kb p : Nat} {b : Buf} (hb : getSlot bs kb p = some b) :
    BInv (removeSlot bs kb p) := by
  have hmap : ∀ k' q, getSlot (removeSlot bs kb p) k' q =
      getSlot bs k' (if k' = kb ∧ ¬(q < p) then q + 1 else q) := by
    intro k' q
    by_cases hk : k' = kb
    · subst hk
      rw [getSlot_remove hb q]
      by_cases hq : q < p
      · rw [if_pos hq, if_neg (by omega)]
      · rw [if_neg hq, if_pos ⟨rfl, hq⟩]
    · rw [getSlot_remove_ne (fun h => hk h.symm) q,
        if_neg (fun hc => hk hc.1)]
  refine ⟨by rw [length_remove]; exact hI.len, ?_, ?_, ?_⟩
  · intro k' p' c hc hlive
    rw [hmap] at hc
    exact hI.hashed _ _ c hc hlive
  · intro k' p' c hc hct
    rw [hmap] at hc
    exact hI.tz _ _ c hc hct
  · intro k1 p1 b1 k2 p2 b2 h1 h2 t1 t2 hd hbn
    rw [hmap] at h1 h2
    obtain ⟨hk, hp⟩ := hI.uniq _ _ b1 _ _ b2 h1 h2 t1 t2 hd hbn
    subst hk
    refine ⟨rfl, ?_⟩
    by_cases h1c : k1 = kb ∧ ¬(p1 < p)
    · rw [if_pos h1c] at hp
      by_cases h2c : k1 = kb ∧ ¬(p2 < p)
      · rw [if_pos h2c] at hp; omega
      · rw [if_neg h2c] at hp; omega
    · rw [if_neg h1c] at hp
      by_cases h2c : k1 = kb ∧ ¬(p2 < p)
      · rw [if_pos h2c] at hp; omega
      · rw [if_neg h2c] at hp; omega

theorem getSlot_insert_cases {bs : List (List Buf)} {k : Nat}
    (hk : k < bs.length) {b : Buf} {k' p' : Nat} {c : Buf}
    (h : getSlot (bbufmap_insertbucket bs k b) k' p' = some c) :
    (k' = k ∧ p' = 0 ∧ c = b) ∨
    (k' = k ∧ ∃ q, p' = q + 1 ∧ getSlot bs k q = some c) ∨
    (k' ≠ k ∧ getSlot bs k' p' = some c) := by
  by_cases hke : k' = k
  · subst hke
    cases p' with
    | zero =>
        rw [getSlot_insert_zero hk b] at h
        cases h
        exact Or.inl ⟨rfl, rfl, rfl⟩
    | succ q =>
        rw [getSlot_insert_succ hk b q] at h
        exact Or.inr (Or.inl ⟨rfl, q, rfl, h⟩)
  · rw [getSlot_insert_ne b (fun hc => hke hc.symm) p'] at h
    exact Or.inr (Or.inr ⟨hke, h⟩)

/-- Installing a fresh live buffer for `(dev, blockno)` at the head of
its home bucket preserves the bucket invariant, provided the re-check
(`bbufmap_searchbucket`) found no live match in that bucket. -/
theorem binv_insert_live {bs : List (List Buf)} (hI : BInv bs)
    {dev blockno : Nat} {nb : Buf}
    (hmiss : bbufmap_searchbucket (bs.getD (BUFMAP_HASH dev blockno) [])
        dev blockno = none)
    (hnbt : nb.trash = false) (hnbd : nb.dev = dev)
    (hnbb : nb.blockno = blockno) :
    BInv (bbufmap_insertbucket bs (BUFMAP_HASH dev blockno) nb) := by
  set key := BUFMAP_HASH dev blockno with hkey
  have hk : key < bs.length := by rw [hI.len]; exact hash_lt dev blockno
  have hconf : ∀ k2 p2 (b2 : Buf), getSlot bs k2 p2 = some b2 →
      b2.trash = false → b2.dev = dev → b2.blockno = blockno → False := by
    intro k2 p2 b2 h2 t2 hd2 hb2
    by_cases hke : k2 = key
    · subst hke
      exact searchbucket_none hmiss p2 b2 h2 t2 ⟨hd2, hb2⟩
    · apply hke
      rw [← hI.hashed k2 p2 b2 h2 t2, hd2, hb2]
  refine ⟨by rw [length_insert]; exact hI.len, ?_, ?_, ?_⟩
  · intro k' p' c hc hlive
    rcases getSlot_insert_cases hk hc with ⟨rfl, -, rfl⟩ | ⟨rfl, q, -, hold⟩ |
        ⟨-, hold⟩
    · rw [hnbd, hnbb]
    · exact hI.hashed key q c hold hlive
    · exact hI.hashed k' p' c hold hlive
  · intro k' p' c hc hct
    rcases getSlot_insert_cases hk hc with ⟨rfl, -, rfl⟩ | ⟨rfl, q, -, hold⟩ |
        ⟨-, hold⟩
    · rw [hnbt] at hct; cases hct
    · exact hI.tz key q c hold hct
    · exact hI.tz k' p' c hold hct
  · intro k1 p1 b1 k2 p2 b2 h1 h2 t1 t2 hd hbn
    rcases getSlot_insert_cases hk h1 with ⟨hk1, hp1, hb1⟩ |
        ⟨hk1, q1, hp1, hold1⟩ | ⟨hk1, hold1⟩ <;>
      rcases getSlot_insert_cases hk h2 with ⟨hk2, hp2, hb2⟩ |
        ⟨hk2, q2, hp2, hold2⟩ | ⟨hk2, hold2⟩
    · exact ⟨hk1.trans hk2.symm, hp1.trans hp2.symm⟩
    · exact (hconf key q2 b2 hold2 t2
        (by rw [← hd, hb1, hnbd]) (by rw [← hbn, hb1, hnbb])).elim
    · exact (hconf k2 p2 b2 hold2 t2
        (by rw [← hd, hb1, hnbd]) (by rw [← hbn, hb1, hnbb])).elim
    · exact (hconf key q1 b1 hold1 t1
        (by rw [hd, hb2, hnbd]) (by rw [hbn, hb2, hnbb])).elim
    · obtain ⟨-, hq⟩ := hI.uniq key q1 b1 key q2 b2 hold1 hold2 t1 t2 hd hbn
      exact ⟨hk1.trans hk2.symm, by rw [hp1, hp2, hq]⟩
    · obtain ⟨hkk, -⟩ := hI.uniq key q1 b1 k2 p2 b2 hold1 hold2 t1 t2 hd hbn
      exact (hk2 hkk.symm).elim
    · exact (hconf k1 p1 b1 hold1 t1
        (by rw [hd, hb2, hnbd]) (by rw [hbn, hb2, hnbb])).elim
    · obtain ⟨hkk, -⟩ := hI.uniq k1 p1 b1 key q2 b2 hold1 hold2 t1 t2 hd hbn
      exact (hk1 hkk).elim
    · exact hI.uniq k1 p1 b1 k2 p2 b2 hold1 hold2 t1 t2 hd hbn

/-- Inserting a trash buffer with zero `refcnt`/`lastuse` (the abandon
path) preserves the bucket invariant: a trash slot is not live, so it
can collide with nothing. -/
theorem binv_insert_trash {bs : List (List Buf)} (hI : BInv bs)
    {k : Nat} (hk : k < bs.length) {tb : Buf}
    (htb : tb.trash = true) (hrc : tb.refcnt = 0) (hlu : tb.lastuse = 0) :
    BInv (bbufmap_insertbucket bs k tb) := by
  refine ⟨by rw [length_insert]; exact hI.len, ?_, ?_, ?_⟩
  · intro k' p' c hc hlive
    rcases getSlot_insert_cases hk hc with ⟨rfl, -, rfl⟩ | ⟨rfl, q, -, hold⟩ |
        ⟨-, hold⟩
    · rw [htb] at hlive; cases hlive
    · exact hI.hashed k' q c hold hlive
    · exact hI.hashed k' p' c hold hlive
  · intro k' p' c hc hct
    rcases getSlot_insert_cases hk hc with ⟨rfl, -, rfl⟩ | ⟨rfl, q, -, hold⟩ |
        ⟨-, hold⟩
    · exact ⟨hrc, hlu⟩
    · exact hI.tz k' q c hold hct
    · exact hI.tz k' p' c hold hct
  · intro k1 p1 b1 k2 p2 b2 h1 h2 t1 t2 hd hbn
    rcases getSlot_insert_cases hk h1 with ⟨hk1, hp1, hb1⟩ |
        ⟨hk1, q1, hp1, hold1⟩ | ⟨hk1, hold1⟩ <;>
      rcases getSlot_insert_cases hk h2 with ⟨hk2, hp2, hb2⟩ |
        ⟨hk2, q2, hp2, hold2⟩ | ⟨hk2, hold2⟩
    · exact ⟨hk1.trans hk2.symm, hp1.trans hp2.symm⟩
    · rw [hb1, htb] at t1; cases t1
    · rw [hb1, htb] at t1; cases t1
    · rw [hb2, htb] at t2; cases t2
    · obtain ⟨-, hq⟩ := hI.uniq k q1 b1 k q2 b2 hold1 hold2 t1 t2 hd hbn
      exact ⟨hk1.trans hk2.symm, by rw [hp1, hp2, hq]⟩
    · obtain ⟨hkk, -⟩ := hI.uniq k q1 b1 k2 p2 b2 hold1 hold2 t1 t2 hd hbn
      exact (hk2 hkk.symm).elim
    · rw [hb2, htb] at t2; cases t2
    · obtain ⟨hkk, -⟩ := hI.uniq k1 p1 b1 k q2 b2 hold1 hold2 t1 t2 hd hbn
      exact (hk1 hkk).elim
    · exact hI.uniq k1 p1 b1 k2 p2 b2 hold1 hold2 t1 t2 hd hbn

/-- Re-tagging the victim slot in place (the eviction path when the
victim already lives in the target bucket) preserves the bucket
invariant, provided the re-check found no live match. -/
theorem binv_retag {bs : List (List Buf)} (hI : BInv bs)
    {dev blockno p : Nat} {b : Buf}
    (hb : getSlot bs (BUFMAP_HASH dev blockno) p = some b)
    (hmiss : bbufmap_searchbucket (bs.getD (BUFMAP_HASH dev blockno) [])
        dev blockno = none)
    {nb : Buf} (hnbt : nb.trash = false) (hnbd : nb.dev = dev)
    (hnbb : nb.blockno = blockno) :
    BInv (setSlot bs (BUFMAP_HASH dev blockno) p nb) := by
  set key := BUFMAP_HASH dev blockno with hkey
  have hconf : ∀ k2 p2 (b2 : Buf), getSlot bs k2 p2 = some b2 →
      b2.trash = false → b2.dev = dev → b2.blockno = blockno → False := by
    intro k2 p2 b2 h2 t2 hd2 hb2
    by_cases hke : k2 = key
    · subst hke
      exact searchbucket_none hmiss p2 b2 h2 t2 ⟨hd2, hb2⟩
    · apply hke
      rw [← hI.hashed k2 p2 b2 h2 t2, hd2, hb2]
  refine ⟨by rw [length_setSlot]; exact hI.len, ?_, ?_, ?_⟩
  · intro k' p' c hc hlive
    rcases getSlot_setSlot_cases hb hc with ⟨rfl, rfl, rfl⟩ | ⟨-, hold⟩
    · rw [hnbd, hnbb]
    · exact hI.hashed k' p' c hold hlive
  · intro k' p' c hc hct
    rcases getSlot_setSlot_cases hb hc with ⟨rfl, rfl, rfl⟩ | ⟨-, hold⟩
    · rw [hnbt] at hct; cases hct
    · exact hI.tz k' p' c hold hct
  · intro k1 p1 b1 k2 p2 b2 h1 h2 t1 t2 hd hbn
    rcases getSlot_setSlot_cases hb h1 with ⟨hk1, hp1, hb1⟩ | ⟨-, hold1⟩ <;>
      rcases getSlot_setSlot_cases hb h2 with ⟨hk2, hp2, hb2⟩ | ⟨-, hold2⟩
    · exact ⟨hk1.trans hk2.symm, hp1.trans hp2.symm⟩
    · exact (hconf k2 p2 b2 hold2 t2
        (by rw [← hd, hb1, hnbd]) (by rw [← hbn, hb1, hnbb])).elim
    · exact (hconf k1 p1 b1 hold1 t1
        (by rw [hd, hb2, hnbd]) (by rw [hbn, hb2, hnbb])).elim
    · exact hI.uniq k1 p1 b1 k2 p2 b2 hold1 hold2 t1 t2 hd hbn

/-- All slots hold `initBuf` right after `binit`. -/
theorem binit_all : ∀ l ∈ binitBuckets NBUF, ∀ b ∈ l, b = initBuf := by
  decide

theorem binit_slot {k p : Nat} {b : Buf}
    (h : getSlot (binitBuckets NBUF) k p = some b) : b = initBuf := by
  obtain ⟨l, hl, hp⟩ := getq_of_getSlot_some h
  exact binit_all l (List.get?_mem hl) b (List.get?_mem hp)

/-- Theorem: `binit` establishes the invariant. -/
theorem inv_binitState : Inv binitState := by
  refine ⟨⟨?_, ?_, ?_, ?_⟩, ?_⟩
  · decide
  · intro k p b h hlive
    rw [binit_slot h] at hlive
    cases hlive
  · intro k p b h ht
    rw [binit_slot h]
    exact ⟨rfl, rfl⟩
  · intro k1 p1 b1 k2 p2 b2 h1 h2 t1 t2 hd hbn
    rw [binit_slot h1] at t1
    cases t1
  · intro b hb
    exact absurd hb (List.not_mem_nil b)

/-- Every atomic transition preserves the invariant. -/
theorem inv_step {σ σ' : BState} (hI : Inv σ) (hS : Step σ σ') : Inv σ' := by
  obtain ⟨hB, hP⟩ := hI
  cases hS with
  | hit dev blockno j b hfind =>
      obtain ⟨hj, ht, hd, hbn⟩ := searchbucket_some hfind
      exact ⟨binv_update_metadata hB hj rfl rfl rfl ht, hP⟩
  | stealRemove dev blockno kb p b hmiss hfl hne =>
      refine ⟨binv_remove hB (findLeast_pos hfl), ?_⟩
      intro c hc
      rcases List.mem_cons.1 hc with rfl | hc'
      · exact findLeast_refcnt hB.tz hfl
      · exact hP c hc'
  | installFresh dev blockno b hp hmiss =>
      exact ⟨binv_insert_live hB hmiss rfl rfl rfl,
        fun c hc => hP c (List.mem_of_mem_erase hc)⟩
  | abandon dev blockno j b m hp hfound =>
      obtain ⟨hj, ht, hd, hbn⟩ := searchbucket_some hfound
      have hB₁ : BInv (setSlot σ.buckets (BUFMAP_HASH dev blockno) j
          { m with refcnt := winc m.refcnt, lockHeld := true }) :=
        binv_update_metadata hB hj rfl rfl rfl ht
      have hk : BUFMAP_HASH dev blockno <
          (setSlot σ.buckets (BUFMAP_HASH dev blockno) j
            { m with refcnt := winc m.refcnt, lockHeld := true }).length := by
        rw [length_setSlot, hB.len]
        exact hash_lt dev blockno
      exact ⟨binv_insert_trash hB₁ hk rfl (hP b hp) rfl,
        fun c hc => hP c (List.mem_of_mem_erase hc)⟩
  | stealSameFresh dev blockno p b hfl hmiss =>
      exact ⟨binv_retag hB (findLeast_pos hfl) hmiss rfl rfl rfl, hP⟩
  | stealSameHit dev blockno p j b m hfl hfound =>
      obtain ⟨hj, ht, hd, hbn⟩ := searchbucket_some hfound
      exact ⟨binv_update_metadata hB hj rfl rfl rfl ht, hP⟩
  | brelseStep k p t b bs' hb ht h =>
      simp only [brelse, hb] at h
      by_cases hl : b.lockHeld = false
      · rw [if_pos hl] at h; cases h
      · rw [if_neg hl] at h
        injection h with h'
        subst h'
        exact ⟨binv_update_metadata hB hb rfl rfl rfl ht, hP⟩
  | bpinStep k p b bs' hb ht h =>
      simp only [bpin, hb] at h
      injection h with h'
      subst h'
      exact ⟨binv_update_metadata hB hb rfl rfl rfl ht, hP⟩
  | bunpinStep k p b bs' hb ht h =>
      simp only [bunpin, hb] at h
      injection h with h'
      subst h'
      exact ⟨binv_update_metadata hB hb rfl rfl rfl ht, hP⟩

/-- Every reachable state satisfies the invariant. -/
theorem reachable_inv {σ : BState} (h : Reachable σ) : Inv σ := by
  induction h with
  | init => exact inv_binitState
  | step hR hS ih => exact inv_step ih hS

/-! ### The specified properties of the buffer cache -/

/-- Helper: `wdec` is plain decrement below the wrap-around bound. -/
theorem wdec_eq {r : Nat} (h1 : 1 ≤ r) (h2 : r < UINTMOD) :
    wdec r = r - 1 := by
  unfold wdec UINTMOD at *
  omega

/-- C2: at every reachable state of the buffer cache, at most one live
(non-trash) slot exists for any given (device, block) pair; this is an
invariant established by `binit` and preserved by every operation,
including the duplicate-miss re-check and abandon path of `bget`
(constructors `installFresh`/`abandon`/`stealSameFresh`/`stealSameHit`
of `Step`). -/
theorem buffer_cache_uniqueness {σ : BState} (h : Reachable σ) :
    Uniq σ.buckets :=
  (reachable_inv h).1.uniq

theorem buffer_cache_uniqueness_witness : Uniq binitState.buckets :=
  buffer_cache_uniqueness Reachable.init

/-- C1: whenever `bget` makes an eviction decision (the scan returns a
victim) in a reachable state, the victim has zero reference count — a
pinned slot is never chosen — and its recorded `lastuse` is minimal
among all slots with zero reference count. -/
theorem bget_eviction_lru {σ : BState} {k p : Nat} {b : Buf}
    (hR : Reachable σ) (hfl : findLeast σ.buckets = some (k, p, b)) :
    b.refcnt = 0 ∧ getSlot σ.buckets k p = some b ∧
    ∀ k' p' b', getSlot σ.buckets k' p' = some b' → b'.refcnt = 0 →
      b.lastuse ≤ b'.lastuse :=
  ⟨findLeast_refcnt (reachable_inv hR).1.tz hfl, findLeast_pos hfl,
    findLeast_min hfl⟩

theorem bget_eviction_lru_witness :
    initBuf.refcnt = 0 ∧ getSlot binitState.buckets 0 0 = some initBuf ∧
    ∀ k' p' b', getSlot binitState.buckets k' p' = some b' →
      b'.refcnt = 0 → initBuf.lastuse ≤ b'.lastuse :=
  bget_eviction_lru Reachable.init (by decide)

/-- C3: in a reachable state, a `bget` miss panics exactly when no
eviction candidate exists: if some slot has zero reference count the
miss returns a buffer, and if every slot is pinned the miss returns
`none` (`panic("bget: no buffers")`). -/
theorem bget_miss_abort_iff {σ : BState} (hR : Reachable σ)
    (dev blockno : Nat)
    (hmiss : bbufmap_searchbucket
        (σ.buckets.getD (BUFMAP_HASH dev blockno) []) dev blockno = none) :
    ((∃ k p b, getSlot σ.buckets k p = some b ∧ b.refcnt = 0) →
        ∃ r, bget σ.buckets dev blockno = some r) ∧
    ((∀ k p b, getSlot σ.buckets k p = some b → b.refcnt ≠ 0) →
        bget σ.buckets dev blockno = none) := by
  have hB := (reachable_inv hR).1
  constructor
  · rintro ⟨k, p, b, hb, h0⟩
    obtain ⟨e, he⟩ := findLeast_isSome hb h0
    rcases e with ⟨kb, pe, nb⟩
    simp only [bget, hmiss, he]
    by_cases hne : kb ≠ BUFMAP_HASH dev blockno
    · rw [if_pos hne]
      rcases hs : bbufmap_searchbucket
          ((removeSlot σ.buckets kb pe).getD (BUFMAP_HASH dev blockno) [])
          dev blockno with - | s
      · exact ⟨_, rfl⟩
      · rcases s with ⟨j, m⟩
        exact ⟨_, rfl⟩
    · rw [if_neg hne]
      exact ⟨_, rfl⟩
  · intro hall
    have hnone := findLeast_none hB.tz hall
    simp only [bget, hmiss, hnone]

theorem bget_miss_abort_iff_witness :
    ∃ r, bget binitState.buckets 1 10 = some r :=
  (bget_miss_abort_iff Reachable.init 1 10 (by decide)).1
    ⟨0, 0, initBuf, by decide, rfl⟩

/-- C9: `brelse` on a buffer whose sleep-lock is not held panics;
otherwise it releases the lock, decrements the reference count by one
and stamps `lastuse` with the current tick exactly when the decremented
count reaches zero (leaving `lastuse` unchanged when the count stays
positive). -/
theorem brelse_spec (bs : List (List Buf)) (k p t : Nat) (b : Buf)
    (hb : getSlot bs k p = some b) :
    (b.lockHeld = false → brelse bs k p t = none) ∧
    (b.lockHeld = true → 1 ≤ b.refcnt → b.refcnt < UINTMOD →
      ∃ bs', brelse bs k p t = some bs' ∧
        getSlot bs' k p = some
          { b with
            lockHeld := false, refcnt := b.refcnt - 1,
            lastuse := if b.refcnt - 1 = 0 then t else b.lastuse } ∧
        (∀ k' p', k ≠ k' ∨ p ≠ p' →
          getSlot bs' k' p' = getSlot bs k' p')) := by
  constructor
  · intro hl
    simp only [brelse, hb, if_pos hl]
  · intro hl h1 h2
    have hlf : ¬ b.lockHeld = false := by rw [hl]; simp
    refine ⟨_, by simp only [brelse, hb]; rw [if_neg hlf], ?_, ?_⟩
    · rw [wdec_eq h1 h2]
      exact getSlot_setSlot_self hb _
    · intro k' p' hne
      exact getSlot_setSlot_ne _ hne

/-- The slot configurations used by the `brelse` witness. -/
def wUnlocked : Buf := { initBuf with trash := false, refcnt := 2, lastuse := 7 }

def wLocked : Buf :=
  { initBuf with trash := false, refcnt := 2, lastuse := 7, lockHeld := true }

theorem brelse_spec_witness :
    (brelse [[wUnlocked]] 0 0 99 = none) ∧
    (∃ bs', brelse [[wLocked]] 0 0 99 = some bs' ∧
      getSlot bs' 0 0 = some
        { wLocked with lockHeld := false, refcnt := 1,
                       lastuse := if (1 : Nat) = 0 then 99 else 7 }) := by
  constructor
  · exact (brelse_spec [[wUnlocked]] 0 0 99 wUnlocked rfl).1 rfl
  · obtain ⟨bs', heq, hslot, -⟩ :=
      (brelse_spec [[wLocked]] 0 0 99 wLocked rfl).2 rfl (by decide) (by decide)
    exact ⟨bs', heq, hslot⟩

/-- C10: `bunpin` decrements the slot's reference count and changes
nothing else: no other slot is touched, and every other field of the
slot — in particular `lastuse`, even when the count reaches zero — is
unchanged, unlike `brelse`. -/
theorem bunpin_frame (bs : List (List Buf)) (k p : Nat) (b : Buf)
    (hb : getSlot bs k p = some b) :
    ∃ bs', bunpin bs k p = some bs' ∧
      getSlot bs' k p = some { b with refcnt := wdec b.refcnt } ∧
      (∀ k' p', k ≠ k' ∨ p ≠ p' →
        getSlot bs' k' p' = getSlot bs k' p') ∧
      ({ b with refcnt := wdec b.refcnt }).lastuse = b.lastuse ∧
      ({ b with refcnt := wdec b.refcnt }).trash = b.trash ∧
      ({ b with refcnt := wdec b.refcnt }).valid = b.valid ∧
      ({ b with refcnt := wdec b.refcnt }).dev = b.dev ∧
      ({ b with refcnt := wdec b.refcnt }).blockno = b.blockno ∧
      ({ b with refcnt := wdec b.refcnt }).lockHeld = b.lockHeld ∧
      (b.refcnt = 1 → wdec b.refcnt = 0) :=
  ⟨_, by simp only [bunpin, hb], getSlot_setSlot_self hb _,
    fun k' p' hne => getSlot_setSlot_ne _ hne,
    rfl, rfl, rfl, rfl, rfl, rfl,
    fun h => by rw [h]; decide⟩

/-- The slot configuration used by the `bunpin` witness. -/
def wPinned : Buf := { initBuf with trash := false, refcnt := 1, lastuse := 42 }

theorem bunpin_frame_witness :
    ∃ bs', bunpin [[wPinned]] 0 0 = some bs' ∧
      getSlot bs' 0 0 = some { wPinned with refcnt := wdec wPinned.refcnt } := by
  obtain ⟨bs', heq, hslot, -⟩ := bunpin_frame [[wPinned]] 0 0 wPinned rfl
  exact ⟨bs', heq, hslot⟩

end XV6
